import Mathlib

/-!
Verification of the DCC signal generator (src/SignalGenerator.cpp).

The development embeds the packet serializer (SignalGenerator::loadPacket),
the ISR bit feeder (SignalGenerator::getNextBitToSend), the shutdown path
(SignalGenerator::stopSignal) and the service mode helpers (readCV,
sampleADCChannel) as executable Lean functions, and proves the testable
properties of the specification against them.

Machine integers are modelled as Nat with explicit truncation: a store into
a uint8_t field is written with a trailing percent 2 ^ 8.  Byte buffers are
Lean lists; the fixed 10 byte packet buffer is a list of length 10.
-/

/-- One DCC packet slot (struct Packet): a 10 byte bit buffer plus
transmission metadata.  Bytes are Nat values below 256. -/
structure Packet where
  buffer : List Nat
  numberOfBits : Nat
  currentBit : Nat
  numberOfRepeats : Nat
deriving Repr, DecidableEq

/-- Arduino bitRead macro: bit number "bit" of "value". -/
def bitRead (value bit : Nat) : Nat := (value >>> bit) &&& 1

/-- XOR checksum of a byte vector, transcribed from loadPacket lines
123 to 125: checksum starts as data[0] and xors in data[1] onward.
The empty case cannot occur in the source (it would read past the end
of the vector); it is given the value 0. -/
def checksum : List Nat → Nat
  | [] => 0
  | d :: rest => rest.foldl (fun a b => a ^^^ b) d

/-- Body of SignalGenerator::loadPacket, lines 118 to 156: append the
checksum byte to the payload, then bit pack the preamble and the framed
bytes MSB first into the 10 byte buffer of the recycled slot "old", and
set numberOfBits, currentBit and numberOfRepeats.  Every store into a
buffer byte is truncated to 8 bits (uint8_t). -/
def serializePacket (old : Packet) (payload : List Nat) (numberOfRepeats : Nat) : Packet :=
  let data := payload ++ [checksum payload]
  let d : Nat → Nat := fun i => data.getD i 0
  let b1 :=
    ((((((old.buffer.set 0 0xFF).set 1 0xFF).set
        2 ((0xFC + bitRead (d 0) 7) % 2 ^ 8)).set
        3 ((d 0 <<< 1) % 2 ^ 8)).set
        4 (d 1 % 2 ^ 8)).set
        5 ((d 2 >>> 1) % 2 ^ 8)).set
        6 ((d 2 <<< 7) % 2 ^ 8)
  if data.length = 3 then
    { buffer := b1, numberOfBits := 49, currentBit := 0, numberOfRepeats := numberOfRepeats }
  else
    let b2 := (b1.set 6 ((b1.getD 6 0 + (d 3 >>> 2)) % 2 ^ 8)).set 7 ((d 3 <<< 6) % 2 ^ 8)
    if data.length = 4 then
      { buffer := b2, numberOfBits := 58, currentBit := 0, numberOfRepeats := numberOfRepeats }
    else
      let b3 := (b2.set 7 ((b2.getD 7 0 + (d 4 >>> 3)) % 2 ^ 8)).set 8 ((d 4 <<< 5) % 2 ^ 8)
      if data.length = 5 then
        { buffer := b3, numberOfBits := 67, currentBit := 0, numberOfRepeats := numberOfRepeats }
      else
        let b4 := (b3.set 8 ((b3.getD 8 0 + (d 5 >>> 4)) % 2 ^ 8)).set 9 ((d 5 <<< 4) % 2 ^ 8)
        { buffer := b4, numberOfBits := 76, currentBit := 0, numberOfRepeats := numberOfRepeats }

/-- Bit extraction of getNextBitToSend line 102: buffer[k / 8] masked with
bitMask[k mod 8], where bitMask selects bits MSB first, so bit position k
is bit number 7 - k mod 8 of byte k / 8. -/
def bitAt (buffer : List Nat) (k : Nat) : Bool :=
  Nat.testBit (buffer.getD (k / 8) 0) (7 - k % 8)

/-- An all zero packet slot: the value produced by new Packet() at
configure time and by the memset in stopSignal. -/
def zeroPacket : Packet :=
  { buffer := List.replicate 10 0, numberOfBits := 0, currentBit := 0, numberOfRepeats := 0 }

/-- What the _currentPacket pointer of a generator designates: either the
pre canned idle singleton (the member _idlePacket) or a pool slot,
identified by the slot id it was given at configure time together with
its current contents. -/
inductive Cur where
  | idle : Cur
  | pool : Nat → Packet → Cur
deriving Repr, DecidableEq

/-- State of one SignalGenerator: the free queue _availablePackets, the
pending queue _toSend (front of each queue at the head of the list, push
appends at the back), the _currentPacket pointer and the contents of the
_idlePacket member.  Pool slots carry their identity as a Nat id so that
conservation can be stated. -/
structure GenState where
  available : List (Nat × Packet)
  toSend : List (Nat × Packet)
  current : Option Cur
  idlePkt : Packet
deriving Repr, DecidableEq

/-- Contents of the packet a Cur value designates. -/
def curPkt (s : GenState) : Cur → Packet
  | .idle => s.idlePkt
  | .pool _ p => p

/-- Write back the contents of the packet designated by a Cur value,
leaving _currentPacket pointing at it. -/
def setCur (s : GenState) (c : Cur) (p : Packet) : GenState :=
  match c with
  | .idle => { s with current := some .idle, idlePkt := p }
  | .pool id _ => { s with current := some (.pool id p) }

/-- getNextBitToSend lines 75 to 88: if a packet is being processed and
all its bits have been sent, either start a repeat pass or retire it
(non idle packets go back to _availablePackets). -/
def nextStep1 (s : GenState) : GenState :=
  match s.current with
  | none => s
  | some c =>
    let p := curPkt s c
    if p.currentBit = p.numberOfBits then
      if 0 < p.numberOfRepeats then
        setCur s c { p with numberOfRepeats := p.numberOfRepeats - 1, currentBit := 0 }
      else
        match c with
        | .pool id q => { s with available := s.available ++ [(id, q)], current := none }
        | .idle => { s with current := none }
    else s

/-- getNextBitToSend lines 91 to 99: with no current packet, dequeue the
front of _toSend, or fall back to the idle singleton with its cursor
reset. -/
def nextStep2 (s : GenState) : GenState :=
  match s.current with
  | some _ => s
  | none =>
    match s.toSend with
    | pr :: rest => { s with current := some (.pool pr.1 pr.2), toSend := rest }
    | [] => { s with current := some .idle, idlePkt := { s.idlePkt with currentBit := 0 } }

/-- SignalGenerator::getNextBitToSend, lines 71 to 106: the two phases
above followed by the bit extraction of lines 101 to 104, which reads the
bit under the cursor and advances the cursor. -/
def getNextBitToSend (s : GenState) : Bool × GenState :=
  let s2 := nextStep2 (nextStep1 s)
  match s2.current with
  | none => (false, s2)
  | some c =>
    let p := curPkt s2 c
    (bitAt p.buffer p.currentBit, setCur s2 c { p with currentBit := p.currentBit + 1 })

/-- SignalGenerator::loadPacket, lines 108 to 167: pop a slot from the
free queue, serialize the payload into it and push it onto _toSend.  When
the free queue is empty the source blocks in a delay loop until a slot
returns; that call cannot proceed, modelled as the identity. -/
def loadPacket (s : GenState) (data : List Nat) (numberOfRepeats : Nat) : GenState :=
  match s.available with
  | [] => s
  | (id, p) :: rest =>
    { s with available := rest,
             toSend := s.toSend ++ [(id, serializePacket p data numberOfRepeats)] }

/-- Drain loop of stopSignal lines 273 to 279: repeatedly point
_currentPacket at the front of _toSend, pop it, zero it (memset) and push
it onto _availablePackets.  Note the loop leaves _currentPacket aimed at
the last drained slot. -/
def drainLoop (avail : List (Nat × Packet)) (cur : Option Cur) :
    List (Nat × Packet) → List (Nat × Packet) × Option Cur
  | [] => (avail, cur)
  | (id, _) :: rest => drainLoop (avail ++ [(id, zeroPacket)]) (some (.pool id zeroPacket)) rest

/-- SignalGenerator::stopSignal, lines 246 to 280 (the timer teardown is
hardware only): return a non idle current packet to the free queue and
null the pointer, then drain _toSend through the loop above. -/
def stopSignal (s : GenState) : GenState :=
  let s1 :=
    match s.current with
    | some (.pool id p) => { s with available := s.available ++ [(id, p)], current := none }
    | _ => s
  let r := drainLoop s1.available s1.current s1.toSend
  { s1 with available := r.1, current := r.2, toSend := [] }

/-- Modelled from the spec: the contents of the _idlePacket member are set
up outside src/ (SignalGenerator.h is not part of the sources); per the
specification the singleton carries the NMRA idle frame 0xFF 0x00 with
its checksum, serialized like any other packet. -/
def idleSingleton : Packet := serializePacket zeroPacket [0xFF, 0x00] 0

/-- Generator state right after SignalGenerator::configureSignal lines
193 to 207: poolSize freshly zero allocated slots in the free queue,
nothing pending, no current packet. -/
def initState (poolSize : Nat) : GenState :=
  { available := (List.range poolSize).map fun i => (i, zeroPacket),
    toSend := [], current := none, idlePkt := idleSingleton }

/-- Number of pool slots a state accounts for: free plus pending plus one
when _currentPacket designates a pool slot (the idle singleton is not a
pool slot). -/
def countPackets (s : GenState) : Nat :=
  s.available.length + s.toSend.length +
    match s.current with
    | some (.pool _ _) => 1
    | _ => 0

/-- One foreground or ISR operation on a generator. -/
inductive Step : GenState → GenState → Prop where
  | load : ∀ (s : GenState) (data : List Nat) (reps : Nat), Step s (loadPacket s data reps)
  | tick : ∀ s : GenState, Step s (getNextBitToSend s).2
  | stop : ∀ s : GenState, Step s (stopSignal s)

/-- Reachability by any interleaving of loadPacket, getNextBitToSend and
stopSignal. -/
inductive Reaches (s : GenState) : GenState → Prop where
  | refl : Reaches s s
  | tail : ∀ t u : GenState, Reaches s t → Step t u → Reaches s u

/-- Iterate getNextBitToSend n times, collecting the emitted bits. -/
def runBits (s : GenState) : Nat → List Bool × GenState
  | 0 => ([], s)
  | n + 1 =>
    let r := getNextBitToSend s
    let rest := runBits r.2 n
    (r.1 :: rest.1, rest.2)

/-- Global idlePacket byte array, line 43. -/
def idlePacket : List Nat := [0xFF, 0x00]

/-- Global resetPacket byte array, line 44. -/
def resetPacket : List Nat := [0x00, 0x00]

/-- loadBytePacket lines 63 to 69 copies the first "length" bytes of a C
array into the payload vector; here it yields the (payload, repeats) pair
that reaches SignalGenerator::loadPacket. -/
def loadBytePacket (data : List Nat) (length repeatCount : Nat) : List Nat × Nat :=
  (data.take length, repeatCount)

/-- readCVBitPacket of readCV line 316 with its third byte set to
0xE8 + bit as on line 324 (highByte and lowByte of cv - 1). -/
def readCVBitPacket (cv bit : Nat) : List Nat :=
  [0x78 + ((cv - 1) >>> 8 &&& 0xFF &&& 0x03), (cv - 1) &&& 0xFF, 0xE8 + bit, 0x00]

/-- verifyCVBitPacket of readCV line 317 with its third byte set to the
accumulated value as on line 337. -/
def verifyCVBitPacket (cv value : Nat) : List Nat :=
  [0x74 + ((cv - 1) >>> 8 &&& 0xFF &&& 0x03), (cv - 1) &&& 0xFF, value &&& 0xFF, 0x00]

/-- sampleADCChannel lines 293 to 308: read the ADC sampleCount times,
accumulate the strictly positive readings and count them, then divide by
the count when it is non zero.  The reading stream is the oracle
"readings"; reading k is the result of the k-th adc1_get_raw call. -/
def sampleADCChannel (readings : Nat → Int) (sampleCount : Nat) : Nat :=
  let st := (List.range sampleCount).foldl
    (fun (st : Nat × Nat) k =>
      if 0 < readings k then (st.1 + (readings k).toNat, st.2 + 1) else st)
    (0, 0)
  if st.2 = 0 then st.1 else st.1 / st.2

/-- readCV lines 313 to 352.  The external collaborators are abstracted:
maxMilliAmps is what the motor board reports, and sample k is the value
returned by the k-th sampleADCChannel call (calls 0 to 7 follow the bit
verify packets for bits 0 to 7, call 8 follows the byte verify packet).
The result pairs the returned int16_t with the log of the (payload,
repeats) pairs handed to loadPacket, in order. -/
def readCV (cv maxMilliAmps : Nat) (sample : Nat → Nat) : Int × List (List Nat × Nat) :=
  let milliAmpAck := 4096 * 60 / maxMilliAmps % 2 ^ 16
  let st := (List.range 8).foldl
    (fun (st : Nat × List (List Nat × Nat)) bit =>
      let log := st.2 ++ [loadBytePacket resetPacket 2 3, loadBytePacket (readCVBitPacket cv bit) 3 5]
      if milliAmpAck < sample bit then (st.1 ||| 1 <<< bit, log) else (st.1, log))
    (0, [])
  let log := st.2 ++
    [loadBytePacket resetPacket 2 3, loadBytePacket (verifyCVBitPacket cv st.1) 3 5]
  if milliAmpAck < sample 8 then ((st.1 : Int), log) else (-1, log)

/-! ### Helper lemmas -/

theorem getD_set_self (l : List Nat) {i : Nat} (v : Nat) (h : i < l.length) :
    (l.set i v).getD i 0 = v := by
  simp [List.getElem?_set_self h]

theorem getD_set_ne (l : List Nat) {i j : Nat} (v : Nat) (h : i ≠ j) :
    (l.set i v).getD j 0 = l.getD j 0 := by
  simp [List.getElem?_set_ne h]

theorem getD_concat (l : List Nat) (a : Nat) : (l ++ [a]).getD l.length 0 = a := by
  induction l with
  | nil => rfl
  | cons x xs ih =>
    simp only [List.cons_append, List.length_cons, List.getD_cons_succ]
    exact ih

theorem checksum_eq_foldl_xor (d0 : Nat) (rest : List Nat) :
    checksum (d0 :: rest) = (d0 :: rest).foldl (fun a b => a ^^^ b) 0 := by
  simp [checksum]

theorem bitRead_top (x : Nat) : bitRead x 7 = 0 ∨ bitRead x 7 = 1 := by
  unfold bitRead
  rw [Nat.and_one_is_mod]
  omega

theorem preamble_byte_true (x j : Nat) (h2 : 2 ≤ j) (h7 : j ≤ 7) :
    Nat.testBit ((252 + bitRead x 7) % 256) j = true := by
  rcases bitRead_top x with hm | hm <;> rw [hm] <;> interval_cases j <;> decide

theorem preamble_byte_bit1 (x : Nat) :
    Nat.testBit ((252 + bitRead x 7) % 256) 1 = false := by
  rcases bitRead_top x with hm | hm <;> rw [hm] <;> decide

theorem shl_mod_testBit (c k : Nat) (hk : k < 8) :
    Nat.testBit ((c <<< k) % 256) k = Nat.testBit c 0 := by
  have h : (c <<< k) % 256 = (c <<< k) % 2 ^ 8 := by norm_num
  rw [h, Nat.testBit_mod_two_pow, Nat.testBit_shiftLeft]
  simp [hk]

theorem serialize_numberOfBits (p : Packet) (data : List Nat) (reps : Nat)
    (h2 : 2 ≤ data.length) (h5 : data.length ≤ 5) :
    (serializePacket p data reps).numberOfBits = 9 * data.length + 31 := by
  rcases (show data.length = 2 ∨ data.length = 3 ∨ data.length = 4 ∨ data.length = 5 by
    omega) with h | h | h | h <;>
      simp [serializePacket, h]

theorem serialize_low_bytes (p : Packet) (data : List Nat) (reps : Nat)
    (hlen : p.buffer.length = 10) (h2 : 2 ≤ data.length) (h5 : data.length ≤ 5) :
    (serializePacket p data reps).buffer.getD 0 0 = 255 ∧
    (serializePacket p data reps).buffer.getD 1 0 = 255 ∧
    (serializePacket p data reps).buffer.getD 2 0 =
      (252 + bitRead ((data ++ [checksum data]).getD 0 0) 7) % 256 := by
  rcases (show data.length = 2 ∨ data.length = 3 ∨ data.length = 4 ∨ data.length = 5 by
    omega) with h | h | h | h
  · simp only [serializePacket]
    rw [if_pos (by simp [h])]
    refine ⟨?_, ?_, ?_⟩ <;> simp +decide [getD_set_ne, getD_set_self, hlen]
  · simp only [serializePacket]
    rw [if_neg (by simp [h]), if_pos (by simp [h])]
    refine ⟨?_, ?_, ?_⟩ <;> simp +decide [getD_set_ne, getD_set_self, hlen]
  · simp only [serializePacket]
    rw [if_neg (by simp [h]), if_neg (by simp [h]), if_pos (by simp [h])]
    refine ⟨?_, ?_, ?_⟩ <;> simp +decide [getD_set_ne, getD_set_self, hlen]
  · simp only [serializePacket]
    rw [if_neg (by simp [h]), if_neg (by simp [h]), if_neg (by simp [h])]
    refine ⟨?_, ?_, ?_⟩ <;> simp +decide [getD_set_ne, getD_set_self, hlen]

theorem serialize_top_byte (p : Packet) (data : List Nat) (reps : Nat)
    (hlen : p.buffer.length = 10) (h2 : 2 ≤ data.length) (h5 : data.length ≤ 5) :
    bitAt (serializePacket p data reps).buffer ((serializePacket p data reps).numberOfBits - 1)
      = Nat.testBit (checksum data) 0 := by
  have hnb := serialize_numberOfBits p data reps h2 h5
  rcases (show data.length = 2 ∨ data.length = 3 ∨ data.length = 4 ∨ data.length = 5 by
    omega) with h | h | h | h
  · have hck : (data ++ [checksum data]).getD 2 0 = checksum data := by
      rw [show (2 : Nat) = data.length from h.symm]
      exact getD_concat _ _
    have htop : (serializePacket p data reps).buffer.getD 6 0 =
        (((data ++ [checksum data]).getD 2 0) <<< 7) % 256 := by
      simp only [serializePacket]
      rw [if_pos (by simp [h])]
      simp +decide [getD_set_ne, getD_set_self, hlen]
    rw [hnb, h]
    simp only [bitAt, Nat.reduceMul, Nat.reduceAdd, Nat.reduceSub, Nat.reduceDiv, Nat.reduceMod]
    rw [htop, hck]
    exact shl_mod_testBit _ _ (by decide)
  · have hck : (data ++ [checksum data]).getD 3 0 = checksum data := by
      rw [show (3 : Nat) = data.length from h.symm]
      exact getD_concat _ _
    have htop : (serializePacket p data reps).buffer.getD 7 0 =
        (((data ++ [checksum data]).getD 3 0) <<< 6) % 256 := by
      simp only [serializePacket]
      rw [if_neg (by simp [h]), if_pos (by simp [h])]
      simp +decide [getD_set_ne, getD_set_self, hlen]
    rw [hnb, h]
    simp only [bitAt, Nat.reduceMul, Nat.reduceAdd, Nat.reduceSub, Nat.reduceDiv, Nat.reduceMod]
    rw [htop, hck]
    exact shl_mod_testBit _ _ (by decide)
  · have hck : (data ++ [checksum data]).getD 4 0 = checksum data := by
      rw [show (4 : Nat) = data.length from h.symm]
      exact getD_concat _ _
    have htop : (serializePacket p data reps).buffer.getD 8 0 =
        (((data ++ [checksum data]).getD 4 0) <<< 5) % 256 := by
      simp only [serializePacket]
      rw [if_neg (by simp [h]), if_neg (by simp [h]), if_pos (by simp [h])]
      simp +decide [getD_set_ne, getD_set_self, hlen]
    rw [hnb, h]
    simp only [bitAt, Nat.reduceMul, Nat.reduceAdd, Nat.reduceSub, Nat.reduceDiv, Nat.reduceMod]
    rw [htop, hck]
    exact shl_mod_testBit _ _ (by decide)
  · have hck : (data ++ [checksum data]).getD 5 0 = checksum data := by
      rw [show (5 : Nat) = data.length from h.symm]
      exact getD_concat _ _
    have htop : (serializePacket p data reps).buffer.getD 9 0 =
        (((data ++ [checksum data]).getD 5 0) <<< 4) % 256 := by
      simp only [serializePacket]
      rw [if_neg (by simp [h]), if_neg (by simp [h]), if_neg (by simp [h])]
      simp +decide [getD_set_ne, getD_set_self, hlen]
    rw [hnb, h]
    simp only [bitAt, Nat.reduceMul, Nat.reduceAdd, Nat.reduceSub, Nat.reduceDiv, Nat.reduceMod]
    rw [htop, hck]
    exact shl_mod_testBit _ _ (by decide)

/-! ### Claims about the serializer (C1, C2, C3, C7) -/

/-- C2 counterexample: on a concrete 2 byte payload the code sets
numberOfBits to 49, not to the value 9 * 2 + 30 = 48 stated by the
claimed formula. -/
theorem loadPacket_numberOfBits_49_not_48 :
    (serializePacket zeroPacket [0x00, 0x00] 0).numberOfBits = 49 ∧
    (serializePacket zeroPacket [0x00, 0x00] 0).numberOfBits ≠ 9 * 2 + 30 := by
  decide

/-- C2 amended: for a payload of n bytes, n between 2 and 5, loadPacket
sets numberOfBits to 22 + 9 * (n + 1) = 9 * n + 31, which takes exactly
the values 49, 58, 67, 76 for n = 2, 3, 4, 5. -/
theorem loadPacket_numberOfBits_formula (p : Packet) (data : List Nat) (reps : Nat)
    (h2 : 2 ≤ data.length) (h5 : data.length ≤ 5) :
    (serializePacket p data reps).numberOfBits = 9 * data.length + 31 :=
  serialize_numberOfBits p data reps h2 h5

/-- C1 counterexample: for the reset frame 0x00 0x00 (checksum 0x00) the
bit at position numberOfBits - 1 of the serialized buffer is 0, not the
claimed closing 1. -/
theorem loadPacket_last_bit_zero_on_reset_frame :
    bitAt (serializePacket zeroPacket [0x00, 0x00] 0).buffer
      ((serializePacket zeroPacket [0x00, 0x00] 0).numberOfBits - 1) = false := by
  decide

/-- C1 amended: for every payload of 2 to 5 bytes the serialized buffer
has bits 0 to 21 all 1 and bit 22 equal to 0, but the bit at position
numberOfBits - 1 is the least significant bit of the checksum byte: the
counted bit stream ends with the checksum and does not include the
closing packet end 1 bit. -/
theorem loadPacket_preamble_and_last_bit (p : Packet) (data : List Nat) (reps : Nat)
    (hlen : p.buffer.length = 10) (h2 : 2 ≤ data.length) (h5 : data.length ≤ 5)
    (hbytes : ∀ b ∈ data, b < 256) :
    (∀ k, k < 22 → bitAt (serializePacket p data reps).buffer k = true) ∧
    bitAt (serializePacket p data reps).buffer 22 = false ∧
    bitAt (serializePacket p data reps).buffer ((serializePacket p data reps).numberOfBits - 1) =
      Nat.testBit (checksum data) 0 := by
  obtain ⟨hb0, hb1, hb2⟩ := serialize_low_bytes p data reps hlen h2 h5
  refine ⟨fun k hk => ?_, ?_, serialize_top_byte p data reps hlen h2 h5⟩
  · interval_cases k <;>
      simp only [bitAt, Nat.reduceDiv, Nat.reduceMod, Nat.reduceSub] <;>
        first
          | (rw [hb0]; decide)
          | (rw [hb1]; decide)
          | (rw [hb2]; exact preamble_byte_true _ _ (by decide) (by decide))
  · simp only [bitAt, Nat.reduceDiv, Nat.reduceMod, Nat.reduceSub]
    rw [hb2]
    exact preamble_byte_bit1 _

theorem loadPacket_preamble_witness :
    zeroPacket.buffer.length = 10 ∧
    bitAt (serializePacket zeroPacket [0xFF, 0x00] 0).buffer 21 = true ∧
    bitAt (serializePacket zeroPacket [0xFF, 0x00] 0).buffer 22 = false ∧
    bitAt (serializePacket zeroPacket [0xFF, 0x00] 0).buffer
      ((serializePacket zeroPacket [0xFF, 0x00] 0).numberOfBits - 1) =
      Nat.testBit (checksum [0xFF, 0x00]) 0 :=
  ⟨by decide,
    (loadPacket_preamble_and_last_bit zeroPacket [0xFF, 0x00] 0 (by decide) (by decide)
      (by decide) (by decide)).1 21 (by decide),
    (loadPacket_preamble_and_last_bit zeroPacket [0xFF, 0x00] 0 (by decide) (by decide)
      (by decide) (by decide)).2.1,
    (loadPacket_preamble_and_last_bit zeroPacket [0xFF, 0x00] 0 (by decide) (by decide)
      (by decide) (by decide)).2.2⟩

theorem loadPacket_numberOfBits_witness :
    2 ≤ ([0x03, 0x3F, 0x80] : List Nat).length ∧ ([0x03, 0x3F, 0x80] : List Nat).length ≤ 5 ∧
    (serializePacket zeroPacket [0x03, 0x3F, 0x80] 0).numberOfBits = 9 * 3 + 31 :=
  ⟨by decide, by decide,
    loadPacket_numberOfBits_formula zeroPacket [0x03, 0x3F, 0x80] 0 (by decide) (by decide)⟩

/-- C3: for every non empty payload the frame built by loadPacket is the
payload with one byte appended, and the appended byte (at position n) is
the XOR of all n payload bytes. -/
theorem frame_checksum_spec (d0 : Nat) (rest : List Nat)
    (hbytes : ∀ b ∈ d0 :: rest, b < 256) :
    ((d0 :: rest) ++ [checksum (d0 :: rest)]).length = (d0 :: rest).length + 1 ∧
    ((d0 :: rest) ++ [checksum (d0 :: rest)]).getD (d0 :: rest).length 0 =
      (d0 :: rest).foldl (fun a b => a ^^^ b) 0 := by
  refine ⟨by simp, ?_⟩
  rw [getD_concat, checksum_eq_foldl_xor]

theorem frame_checksum_witness :
    (∀ b ∈ ([0x03, 0x3F, 0x80] : List Nat), b < 256) ∧
    (([0x03, 0x3F, 0x80] : List Nat) ++ [checksum [0x03, 0x3F, 0x80]]).length = 3 + 1 ∧
    (([0x03, 0x3F, 0x80] : List Nat) ++ [checksum [0x03, 0x3F, 0x80]]).getD 3 0 = 0xBC :=
  ⟨by decide,
    (frame_checksum_spec 0x03 [0x3F, 0x80] (by decide)).1,
    by have h := (frame_checksum_spec 0x03 [0x3F, 0x80] (by decide)).2; simpa using h⟩

/-- C7 counterexample: a 6 byte payload, outside the claimed accepted
range 2 to 5, is still enqueued by loadPacket: the pending queue grows
from empty to one packet. -/
theorem loadPacket_accepts_six_byte_payload :
    (initState 1).toSend.length = 0 ∧
    (loadPacket (initState 1) [1, 2, 3, 4, 5, 6] 0).toSend.length = 1 := by
  decide

/-- C7 amended: loadPacket performs no payload length validation.  Every
call made while a free slot exists enqueues exactly one packet, whatever
the payload length; for payloads longer than 5 bytes the serializer keeps
numberOfBits at 76, silently dropping the frame bytes beyond index 5
(payloads of 0 or 1 bytes make the source read past the end of its data
vector instead of rejecting). -/
theorem loadPacket_no_length_validation (s : GenState) (id : Nat) (p : Packet)
    (rest : List (Nat × Packet)) (data : List Nat) (reps : Nat)
    (ha : s.available = (id, p) :: rest) :
    (loadPacket s data reps).toSend = s.toSend ++ [(id, serializePacket p data reps)] ∧
    (5 < data.length → (serializePacket p data reps).numberOfBits = 76) := by
  constructor
  · unfold loadPacket
    rw [ha]
  · intro h6
    have hl : (data ++ [checksum data]).length = data.length + 1 := by simp
    unfold serializePacket
    rw [if_neg (by omega), if_neg (by omega), if_neg (by omega)]

theorem loadPacket_no_length_validation_witness :
    (loadPacket (initState 1) [1, 2, 3, 4, 5, 6] 0).toSend =
      [] ++ [(0, serializePacket zeroPacket [1, 2, 3, 4, 5, 6] 0)] ∧
    (serializePacket zeroPacket [1, 2, 3, 4, 5, 6] 0).numberOfBits = 76 :=
  ⟨(loadPacket_no_length_validation (initState 1) 0 zeroPacket [] [1, 2, 3, 4, 5, 6] 0 rfl).1,
    (loadPacket_no_length_validation (initState 1) 0 zeroPacket [] [1, 2, 3, 4, 5, 6] 0 rfl).2
      (by decide)⟩

/-! ### Claims about the queue discipline (C4, C8) -/

/-- C4: packet conservation is violated by the code.  With a pool of one
slot, loading one packet and then stopping the generator leaves the
drained slot both in the free queue and designated by _currentPacket
(the drain loop of stopSignal uses _currentPacket as its iteration
variable and never nulls it), so free + pending + current counts 2 slots
against a pool of 1. -/
theorem packet_conservation_violated_by_stop :
    countPackets (initState 1) = 1 ∧
    Reaches (initState 1) (stopSignal (loadPacket (initState 1) resetPacket 0)) ∧
    countPackets (stopSignal (loadPacket (initState 1) resetPacket 0)) = 2 :=
  ⟨by decide,
    Reaches.tail _ _ (Reaches.tail _ _ Reaches.refl (Step.load _ resetPacket 0))
      (Step.stop _),
    by decide⟩

/-- C8: after stopSignal the pending queue is indeed empty, but
_currentPacket is not null: with one loaded packet pending at the stop
call, the drain loop leaves _currentPacket designating the drained
(zeroed) slot. -/
theorem stopSignal_leaves_current_packet :
    (stopSignal (loadPacket (initState 1) resetPacket 0)).toSend = [] ∧
    (stopSignal (loadPacket (initState 1) resetPacket 0)).current =
      some (Cur.pool 0 zeroPacket) ∧
    (stopSignal (loadPacket (initState 1) resetPacket 0)).current ≠ none := by
  refine ⟨by decide, by decide, ?_⟩
  intro h
  simp [stopSignal, loadPacket, initState, drainLoop] at h

example : (serializePacket zeroPacket [0x03, 0x3F, 0x80] 0).numberOfBits = 58 := by decide
example : checksum [0x03, 0x3F, 0x80] = 0xBC := by decide
example : (serializePacket zeroPacket [0xFF, 0x00] 0).numberOfBits = 49 := by decide
example : (serializePacket zeroPacket [0xFF, 0x00] 0).buffer =
    [0xFF, 0xFF, 0xFD, 0xFE, 0x00, 0x7F, 0x80, 0, 0, 0] := by decide
example : bitAt (serializePacket zeroPacket [0xFF, 0x00] 0).buffer 22 = false := by decide
example : bitAt (serializePacket zeroPacket [0xFF, 0x00] 0).buffer 48 = true := by decide
example : bitAt (serializePacket zeroPacket [0x00, 0x00] 0).buffer 48 = false := by decide

/-! ### Claims about the service mode protocol (C6, C10) -/

theorem sample_fold_pair (l : List Int) :
    ∀ (a c : Nat),
    l.foldl (fun (st : Nat × Nat) r => if 0 < r then (st.1 + r.toNat, st.2 + 1) else st) (a, c) =
      (a + ((l.filter (fun r => decide (0 < r))).map Int.toNat).sum,
       c + (l.filter (fun r => decide (0 < r))).length) := by
  induction l with
  | nil => intro a c; simp
  | cons x xs ih =>
    intro a c
    by_cases hx : 0 < x
    · simp only [List.foldl_cons, if_pos hx, ih, List.filter_cons, decide_eq_true hx]
      simp [Nat.add_assoc, Nat.add_comm]
    · simp only [List.foldl_cons, if_neg hx, ih, List.filter_cons]
      simp [hx]

/-- C10: sampleADCChannel averages exactly the strictly positive readings
(floor division); with no positive reading it returns 0, so an all zero
ADC can never exceed a threshold of at least 1. -/
theorem sampleADCChannel_spec (readings : Nat → Int) (n : Nat) :
    ((((List.range n).map readings).filter (fun r => decide (0 < r))) ≠ [] →
      sampleADCChannel readings n =
        (((((List.range n).map readings).filter (fun r => decide (0 < r)))).map Int.toNat).sum /
          ((((List.range n).map readings).filter (fun r => decide (0 < r)))).length) ∧
    ((((List.range n).map readings).filter (fun r => decide (0 < r))) = [] →
      sampleADCChannel readings n = 0) ∧
    ((∀ k, k < n → readings k = 0) → ∀ thr, 1 ≤ thr → ¬ thr < sampleADCChannel readings n) := by
  set pos := (((List.range n).map readings).filter (fun r => decide (0 < r))) with hpos
  have hfold : (List.range n).foldl
      (fun (st : Nat × Nat) k => if 0 < readings k then (st.1 + (readings k).toNat, st.2 + 1) else st)
      (0, 0) = ((pos.map Int.toNat).sum, pos.length) := by
    have h := sample_fold_pair ((List.range n).map readings) 0 0
    rw [List.foldl_map] at h
    simpa using h
  have hval : sampleADCChannel readings n =
      if pos.length = 0 then (pos.map Int.toNat).sum else (pos.map Int.toNat).sum / pos.length := by
    simp only [sampleADCChannel, hfold]
  refine ⟨?_, ?_, ?_⟩
  · intro hne
    rw [hval, if_neg (by simpa [List.length_eq_zero] using hne)]
  · intro he
    rw [hval]
    simp [he]
  · intro hz thr hthr
    have hp : pos = [] := by
      simp only [hpos, List.filter_eq_nil_iff]
      intro a ha
      simp only [List.mem_map, List.mem_range] at ha
      obtain ⟨k, hk, rfl⟩ := ha
      simp [hz k hk]
    have h0 : sampleADCChannel readings n = 0 := by rw [hval]; simp [hp]
    omega

theorem sampleADCChannel_witness :
    sampleADCChannel (fun k => if k = 0 then -3 else if k = 1 then 7 else 10) 3 = 8 ∧
    sampleADCChannel (fun _ => 0) 250 = 0 ∧
    ¬ (122 : Nat) < sampleADCChannel (fun _ => 0) 250 :=
  ⟨by
    have h := (sampleADCChannel_spec (fun k => if k = 0 then -3 else if k = 1 then 7 else 10) 3).1
      (by decide)
    simpa using h,
   by
    have h := (sampleADCChannel_spec (fun _ => (0 : Int)) 250).2.1 (by decide)
    simpa using h,
   (sampleADCChannel_spec (fun _ => (0 : Int)) 250).2.2 (fun k _ => rfl) 122 (by decide)⟩

theorem readCV_fold_fst (cv thr : Nat) (sample : Nat → Nat) :
    ∀ (l : List Nat) (st : Nat × List (List Nat × Nat)),
    (l.foldl (fun (st : Nat × List (List Nat × Nat)) bit =>
        let log := st.2 ++
          [loadBytePacket resetPacket 2 3, loadBytePacket (readCVBitPacket cv bit) 3 5]
        if thr < sample bit then (st.1 ||| 1 <<< bit, log) else (st.1, log)) st).1 =
      l.foldl (fun a bit => if thr < sample bit then a ||| 1 <<< bit else a) st.1 := by
  intro l
  induction l with
  | nil => intro st; rfl
  | cons x xs ih =>
    intro st
    by_cases hx : thr < sample x <;> simp [hx, ih]

theorem accum_testBit (thr : Nat) (sample : Nat → Nat) :
    ∀ (l : List Nat) (a : Nat) (i : Nat),
    (Nat.testBit (l.foldl (fun a bit => if thr < sample bit then a ||| 1 <<< bit else a) a) i
      = true) ↔ (Nat.testBit a i = true ∨ (i ∈ l ∧ thr < sample i)) := by
  intro l
  induction l with
  | nil => intro a i; simp
  | cons x xs ih =>
    intro a i
    simp only [List.foldl_cons, ih, List.mem_cons]
    by_cases hx : thr < sample x
    · rw [if_pos hx]
      by_cases hix : i = x
      · subst hix
        simp [Nat.testBit_or, Nat.one_shiftLeft, Nat.testBit_two_pow_self, hx]
      · simp only [Nat.testBit_or, Nat.one_shiftLeft,
          Nat.testBit_two_pow_of_ne (fun h => hix h.symm), Bool.or_false]
        constructor
        · rintro (h | h)
          · exact Or.inl h
          · exact Or.inr ⟨Or.inr h.1, h.2⟩
        · rintro (h | ⟨h1 | h1, h2⟩)
          · exact Or.inl h
          · exact absurd h1 hix
          · exact Or.inr ⟨h1, h2⟩
    · rw [if_neg hx]
      constructor
      · rintro (h | h)
        · exact Or.inl h
        · exact Or.inr ⟨Or.inr h.1, h.2⟩
      · rintro (h | ⟨h1 | h1, h2⟩)
        · exact Or.inl h
        · exact absurd (h1 ▸ h2) hx
        · exact Or.inr ⟨h1, h2⟩

theorem accum_lt (thr : Nat) (sample : Nat → Nat) :
    ∀ (l : List Nat) (a : Nat), a < 256 → (∀ b ∈ l, b < 8) →
    l.foldl (fun a bit => if thr < sample bit then a ||| 1 <<< bit else a) a < 256 := by
  intro l
  induction l with
  | nil => intro a ha _; simpa using ha
  | cons x xs ih =>
    intro a ha hl
    simp only [List.foldl_cons]
    apply ih
    · by_cases hx : thr < sample x
      · rw [if_pos hx]
        have hx8 : x < 8 := hl x (by simp)
        have h2 : (1 <<< x) < 256 := by
          rw [Nat.one_shiftLeft]
          calc 2 ^ x < 2 ^ 8 := Nat.pow_lt_pow_right (by norm_num) hx8
          _ = 256 := by norm_num
        have h3 := Nat.or_lt_two_pow (n := 8) (x := a) (y := 1 <<< x)
          (by simpa using ha) (by simpa using h2)
        simpa using h3
      · rw [if_neg hx]; exact ha
    · intro b hb; exact hl b (by simp [hb])

/-- C6: for every CV in range and every ADC sampler behaviour, readCV
returns -1 exactly when the final byte verify ACK check fails, and
otherwise returns the accumulated byte (0 to 255) whose bit i is set
exactly when the sample taken after the bit i verify packets exceeded the
ACK threshold 4096 * 60 / maxMilliAmps. -/
theorem readCV_spec (cv maxMilliAmps : Nat) (sample : Nat → Nat)
    (hcv1 : 1 ≤ cv) (hcv2 : cv ≤ 1024) (hma : 4 ≤ maxMilliAmps) :
    (¬ 4096 * 60 / maxMilliAmps < sample 8 → (readCV cv maxMilliAmps sample).1 = -1) ∧
    (4096 * 60 / maxMilliAmps < sample 8 → ∃ v : Nat,
      (readCV cv maxMilliAmps sample).1 = (v : Int) ∧ v ≤ 255 ∧
      ∀ i, i < 8 → (Nat.testBit v i = true ↔ 4096 * 60 / maxMilliAmps < sample i)) := by
  have hlt : 4096 * 60 / maxMilliAmps < 2 ^ 16 := by
    have h1 : 4096 * 60 / maxMilliAmps ≤ 4096 * 60 / 4 := Nat.div_le_div_left hma (by norm_num)
    omega
  have hthr : 4096 * 60 / maxMilliAmps % 2 ^ 16 = 4096 * 60 / maxMilliAmps :=
    Nat.mod_eq_of_lt hlt
  simp only [readCV, hthr, readCV_fold_fst]
  constructor
  · intro h
    rw [if_neg h]
  · intro h
    rw [if_pos h]
    refine ⟨(List.range 8).foldl
      (fun a bit => if 4096 * 60 / maxMilliAmps < sample bit then a ||| 1 <<< bit else a) 0,
      rfl, ?_, ?_⟩
    · have h4 := accum_lt (4096 * 60 / maxMilliAmps) sample (List.range 8) 0 (by norm_num)
        (by intro b hb; simpa using List.mem_range.mp hb)
      omega
    · intro i hi
      rw [accum_testBit]
      simp [hi]

theorem readCV_witness :
    (readCV 1 2000 (fun _ => 0)).1 = -1 :=
  (readCV_spec 1 2000 (fun _ => 0) (by decide) (by decide) (by decide)).1 (by decide)

/-! ### Claims about the pending queue and playback (C5, C9) -/

theorem setCur_toSend (s : GenState) (c : Cur) (p : Packet) :
    (setCur s c p).toSend = s.toSend := by
  cases c <;> rfl

theorem setCur_available (s : GenState) (c : Cur) (p : Packet) :
    (setCur s c p).available = s.available := by
  cases c <;> rfl

theorem nextStep1_toSend (s : GenState) : (nextStep1 s).toSend = s.toSend := by
  unfold nextStep1
  cases hc : s.current with
  | none => rfl
  | some c =>
    cases c with
    | idle =>
      dsimp only [curPkt]
      split
      · split
        · rfl
        · rfl
      · rfl
    | pool id q =>
      dsimp only [curPkt]
      split
      · split
        · rfl
        · rfl
      · rfl

theorem nextStep2_toSend (s : GenState) :
    (nextStep2 s).toSend = s.toSend ∨ ∃ pr, s.toSend = pr :: (nextStep2 s).toSend := by
  unfold nextStep2
  cases hc : s.current with
  | some c => exact Or.inl rfl
  | none =>
    cases ht : s.toSend with
    | nil => exact Or.inl rfl
    | cons pr rest => exact Or.inr ⟨pr, rfl⟩

theorem getNextBit_toSend_eq (s : GenState) :
    (getNextBitToSend s).2.toSend = (nextStep2 (nextStep1 s)).toSend := by
  unfold getNextBitToSend
  dsimp only
  cases hc : (nextStep2 (nextStep1 s)).current with
  | none => rfl
  | some c => cases c <;> rfl

theorem tick_toSend_suffix (s : GenState) :
    (getNextBitToSend s).2.toSend = s.toSend ∨
      ∃ pr, s.toSend = pr :: (getNextBitToSend s).2.toSend := by
  rw [getNextBit_toSend_eq]
  have h := nextStep2_toSend (nextStep1 s)
  rw [nextStep1_toSend] at h
  exact h

theorem serialize_currentBit (p : Packet) (data : List Nat) (reps : Nat) :
    (serializePacket p data reps).currentBit = 0 := by
  unfold serializePacket
  dsimp only
  split
  · rfl
  · split
    · rfl
    · split <;> rfl

theorem serialize_numberOfRepeats (p : Packet) (data : List Nat) (reps : Nat) :
    (serializePacket p data reps).numberOfRepeats = reps := by
  unfold serializePacket
  dsimp only
  split
  · rfl
  · split
    · rfl
    · split <;> rfl

theorem loadPacket_toSend_cases (s : GenState) (data : List Nat) (reps : Nat) :
    (loadPacket s data reps).toSend = s.toSend ∨
      ∃ id p rest, s.available = (id, p) :: rest ∧
        (loadPacket s data reps).toSend = s.toSend ++ [(id, serializePacket p data reps)] := by
  unfold loadPacket
  cases ha : s.available with
  | nil => exact Or.inl rfl
  | cons pr rest =>
    obtain ⟨id, p⟩ := pr
    exact Or.inr ⟨id, p, rest, rfl, rfl⟩

/-- C9: every packet in the pending queue has currentBit 0 and carries the
requested repeat count: the cursor invariant holds on every reachable
state, loadPacket enqueues exactly one freshly serialized packet with
cursor 0 and numberOfRepeats as requested, and getNextBitToSend never
enqueues into pending (it can only pop the front). -/
theorem pending_queue_cursor_invariant :
    (∀ (n : Nat) (s : GenState), Reaches (initState n) s →
      ∀ pr ∈ s.toSend, pr.2.currentBit = 0) ∧
    (∀ (s : GenState) (data : List Nat) (reps : Nat) (id : Nat) (p : Packet)
        (rest : List (Nat × Packet)), s.available = (id, p) :: rest →
      (loadPacket s data reps).toSend = s.toSend ++ [(id, serializePacket p data reps)] ∧
      (serializePacket p data reps).currentBit = 0 ∧
      (serializePacket p data reps).numberOfRepeats = reps) ∧
    (∀ s : GenState, (getNextBitToSend s).2.toSend = s.toSend ∨
      ∃ pr, s.toSend = pr :: (getNextBitToSend s).2.toSend) := by
  refine ⟨?_, ?_, tick_toSend_suffix⟩
  · intro n s hreach
    induction hreach with
    | refl => intro pr hpr; simp [initState] at hpr
    | tail t u hru step ih =>
      cases step with
      | load data reps =>
        rcases loadPacket_toSend_cases t data reps with h | ⟨id, p, rest, _, h⟩
        · rw [h]; exact ih
        · rw [h]
          intro pr hpr
          rcases List.mem_append.mp hpr with hm | hm
          · exact ih pr hm
          · rcases List.mem_singleton.mp hm with rfl
            exact serialize_currentBit p data reps
      | tick =>
        rcases tick_toSend_suffix t with h | ⟨pr0, h⟩
        · rw [h]; exact ih
        · intro pr hpr
          exact ih pr (by rw [h]; exact List.mem_cons_of_mem _ hpr)
      | stop =>
        intro pr hpr
        simp [stopSignal] at hpr
  · intro s data reps id p rest heq
    refine ⟨?_, serialize_currentBit p data reps, serialize_numberOfRepeats p data reps⟩
    unfold loadPacket
    rw [heq]

theorem pending_queue_cursor_witness :
    (serializePacket zeroPacket [0x00, 0x00] 7).currentBit = 0 ∧
    (serializePacket zeroPacket [0x00, 0x00] 7).numberOfRepeats = 7 ∧
    (loadPacket (initState 1) [0x00, 0x00] 7).toSend =
      [] ++ [(0, serializePacket zeroPacket [0x00, 0x00] 7)] :=
  ⟨(pending_queue_cursor_invariant.2.1 (initState 1) [0x00, 0x00] 7 0 zeroPacket [] rfl).2.1,
   (pending_queue_cursor_invariant.2.1 (initState 1) [0x00, 0x00] 7 0 zeroPacket [] rfl).2.2,
   (pending_queue_cursor_invariant.2.1 (initState 1) [0x00, 0x00] 7 0 zeroPacket [] rfl).1⟩

/-! ### Playback lemmas for the ISR bit feeder (C5) -/

theorem nextStep1_of_none (s : GenState) (hc : s.current = none) : nextStep1 s = s := by
  unfold nextStep1
  rw [hc]

theorem nextStep1_of_mid (s : GenState) (id : Nat) (p : Packet)
    (hc : s.current = some (.pool id p)) (hlt : p.currentBit < p.numberOfBits) :
    nextStep1 s = s := by
  unfold nextStep1
  rw [hc]
  dsimp only [curPkt]
  rw [if_neg (Nat.ne_of_lt hlt)]

theorem nextStep1_of_wrap (s : GenState) (id : Nat) (p : Packet)
    (hc : s.current = some (.pool id p)) (heq : p.currentBit = p.numberOfBits)
    (hrep : 0 < p.numberOfRepeats) :
    nextStep1 s = { s with current := some (.pool id { p with numberOfRepeats := p.numberOfRepeats - 1, currentBit := 0 }) } := by
  unfold nextStep1
  rw [hc]
  dsimp only [curPkt]
  rw [if_pos heq, if_pos hrep]
  rfl

theorem nextStep1_of_retire (s : GenState) (id : Nat) (p : Packet)
    (hc : s.current = some (.pool id p)) (heq : p.currentBit = p.numberOfBits)
    (hrep : p.numberOfRepeats = 0) :
    nextStep1 s = { s with available := s.available ++ [(id, p)], current := none } := by
  unfold nextStep1
  rw [hc]
  dsimp only [curPkt]
  rw [if_pos heq, if_neg (by omega)]

theorem nextStep2_of_some (s : GenState) (c : Cur) (hc : s.current = some c) :
    nextStep2 s = s := by
  unfold nextStep2
  rw [hc]

theorem nextStep2_of_dequeue (s : GenState) (id : Nat) (p : Packet)
    (rest : List (Nat × Packet)) (hc : s.current = none) (ht : s.toSend = (id, p) :: rest) :
    nextStep2 s = { s with current := some (.pool id p), toSend := rest } := by
  unfold nextStep2
  rw [hc, ht]

theorem nextStep2_available (s : GenState) : (nextStep2 s).available = s.available := by
  unfold nextStep2
  cases hc : s.current with
  | some c => rfl
  | none =>
    cases ht : s.toSend with
    | nil => rfl
    | cons pr rest => rfl

theorem getNextBit_available_eq (s : GenState) :
    (getNextBitToSend s).2.available = (nextStep2 (nextStep1 s)).available := by
  unfold getNextBitToSend
  dsimp only
  cases hc : (nextStep2 (nextStep1 s)).current with
  | none => rfl
  | some c => cases c <;> rfl

theorem tick_emit (s : GenState) (id : Nat) (p : Packet)
    (hc : s.current = some (.pool id p)) (hlt : p.currentBit < p.numberOfBits) :
    getNextBitToSend s =
      (bitAt p.buffer p.currentBit,
       { s with current := some (.pool id { p with currentBit := p.currentBit + 1 }) }) := by
  have h2 : nextStep2 (nextStep1 s) = s := by
    rw [nextStep1_of_mid s id p hc hlt]
    exact nextStep2_of_some s _ hc
  unfold getNextBitToSend
  dsimp only
  rw [h2, hc]
  dsimp only [curPkt, setCur]

theorem tick_wrap (s : GenState) (id : Nat) (p : Packet)
    (hc : s.current = some (.pool id p)) (heq : p.currentBit = p.numberOfBits)
    (hrep : 0 < p.numberOfRepeats) :
    getNextBitToSend s =
      (bitAt p.buffer 0,
       { s with current := some (.pool id { p with numberOfRepeats := p.numberOfRepeats - 1, currentBit := 1 }) }) := by
  have h2 : nextStep2 (nextStep1 s) = { s with current := some (.pool id { p with numberOfRepeats := p.numberOfRepeats - 1, currentBit := 0 }) } := by
    rw [nextStep1_of_wrap s id p hc heq hrep]
    exact nextStep2_of_some _ _ rfl
  unfold getNextBitToSend
  dsimp only
  rw [h2]
  dsimp only [curPkt, setCur]

theorem tick_dequeue (s : GenState) (id : Nat) (p : Packet)
    (rest : List (Nat × Packet)) (hc : s.current = none) (ht : s.toSend = (id, p) :: rest) :
    getNextBitToSend s =
      (bitAt p.buffer p.currentBit,
       { s with current := some (.pool id { p with currentBit := p.currentBit + 1 }),
                toSend := rest }) := by
  have h2 : nextStep2 (nextStep1 s) =
      { s with current := some (.pool id p), toSend := rest } := by
    rw [nextStep1_of_none s hc]
    exact nextStep2_of_dequeue s id p rest hc ht
  unfold getNextBitToSend
  dsimp only
  rw [h2]
  dsimp only [curPkt, setCur]

theorem tick_retire_available (s : GenState) (id : Nat) (p : Packet)
    (hc : s.current = some (.pool id p)) (heq : p.currentBit = p.numberOfBits)
    (hrep : p.numberOfRepeats = 0) :
    (getNextBitToSend s).2.available = s.available ++ [(id, p)] := by
  rw [getNextBit_available_eq, nextStep2_available, nextStep1_of_retire s id p hc heq hrep]

theorem runBits_add (s : GenState) (m n : Nat) :
    runBits s (m + n) = ((runBits s m).1 ++ (runBits (runBits s m).2 n).1,
                         (runBits (runBits s m).2 n).2) := by
  induction m generalizing s with
  | zero => simp [runBits]
  | succ m ih =>
    have hmn : m + 1 + n = (m + n) + 1 := by omega
    rw [hmn]
    simp only [runBits]
    rw [ih ((getNextBitToSend s).2)]
    simp

theorem run_emit_seg (B : List Nat) (nb ρ : Nat) :
    ∀ (m c : Nat), c + m ≤ nb → ∀ (s : GenState) (id : Nat),
      s.current = some (.pool id ⟨B, nb, c, ρ⟩) →
      runBits s m =
        ((List.range m).map (fun j => bitAt B (c + j)),
         { s with current := some (.pool id ⟨B, nb, c + m, ρ⟩) }) := by
  intro m
  induction m with
  | zero =>
    intro c hcm s id hc
    simp only [runBits, List.range_zero, List.map_nil]
    rw [Nat.add_zero, ← hc]
  | succ m ih =>
    intro c hcm s id hc
    have hstep := tick_emit s id ⟨B, nb, c, ρ⟩ hc (by simp; omega)
    simp only [runBits, hstep]
    rw [ih (c + 1) (by omega) _ id rfl]
    refine Prod.ext ?_ ?_
    · dsimp only
      rw [List.range_succ_eq_map]
      simp only [List.map_cons, List.map_map, Nat.add_zero]
      congr 1
      apply List.map_congr_left
      intro j _
      simp only [Function.comp_apply]
      congr 1
      omega
    · dsimp only
      have harith : c + 1 + m = c + (m + 1) := by omega
      rw [harith]

theorem run_pass (B : List Nat) (k ρ : Nat) (s : GenState) (id : Nat)
    (hc : s.current = some (.pool id ⟨B, k + 1, 0, ρ⟩)) :
    runBits s (k + 1) =
      ((List.range (k + 1)).map (bitAt B),
       { s with current := some (.pool id ⟨B, k + 1, k + 1, ρ⟩) }) := by
  have h := run_emit_seg B (k + 1) ρ (k + 1) 0 (by omega) s id hc
  simpa using h

theorem runBits_one (s : GenState) :
    runBits s 1 = ([(getNextBitToSend s).1], (getNextBitToSend s).2) := rfl

theorem head_shift_map (B : List Nat) (k : Nat) :
    bitAt B 0 :: (List.range k).map (fun j => bitAt B (1 + j)) =
      (List.range (k + 1)).map (bitAt B) := by
  rw [List.range_succ_eq_map]
  simp only [List.map_cons, List.map_map]
  congr 1
  apply List.map_congr_left
  intro j _
  simp only [Function.comp_apply]
  congr 1
  omega

theorem run_wrap_pass (B : List Nat) (k ρ : Nat) (s : GenState) (id : Nat)
    (hc : s.current = some (.pool id ⟨B, k + 1, k + 1, ρ + 1⟩)) :
    runBits s (k + 1) =
      ((List.range (k + 1)).map (bitAt B),
       { s with current := some (.pool id ⟨B, k + 1, k + 1, ρ⟩) }) := by
  have hw := tick_wrap s id ⟨B, k + 1, k + 1, ρ + 1⟩ hc rfl (Nat.succ_pos ρ)
  have hle : 1 + k ≤ k + 1 := by omega
  have hseg := run_emit_seg B (k + 1) ρ k 1 hle
    { s with current := some (.pool id ⟨B, k + 1, 1, ρ⟩) } id rfl
  conv_lhs => rw [show k + 1 = 1 + k by omega]
  rw [runBits_add, runBits_one, hw]
  dsimp only
  have hstates : ({ s with current := some (.pool id { (⟨B, k + 1, k + 1, ρ + 1⟩ : Packet) with numberOfRepeats := ρ + 1 - 1, currentBit := 1 }) } : GenState) = { s with current := some (.pool id ⟨B, k + 1, 1, ρ⟩) } := rfl
  rw [hstates, hseg]
  refine Prod.ext ?_ ?_
  · dsimp only
    simp only [List.singleton_append]
    exact head_shift_map B k
  · dsimp only
    rw [show 1 + k = k + 1 by omega]

theorem cycle_split (B : List Nat) (k m : Nat) :
    (List.range (k + 1)).map (bitAt B) ++
      (List.range m).map (fun j => bitAt B (j % (k + 1))) =
    (List.range ((k + 1) + m)).map (fun j => bitAt B (j % (k + 1))) := by
  conv_rhs => rw [List.range_add]
  rw [List.map_append, List.map_map]
  congr 1
  · apply List.map_congr_left
    intro j hj
    have hjlt : j % (k + 1) = j := Nat.mod_eq_of_lt (by simpa using hj)
    rw [hjlt]
  · apply List.map_congr_left
    intro j _
    simp only [Function.comp_apply]
    congr 1
    exact (Nat.add_mod_left (k + 1) j).symm

theorem run_repeats (B : List Nat) (k : Nat) :
    ∀ (ρ : Nat) (s : GenState) (id : Nat),
      s.current = some (.pool id ⟨B, k + 1, k + 1, ρ⟩) →
      runBits s (ρ * (k + 1)) =
        ((List.range (ρ * (k + 1))).map (fun j => bitAt B (j % (k + 1))),
         { s with current := some (.pool id ⟨B, k + 1, k + 1, 0⟩) }) := by
  intro ρ
  induction ρ with
  | zero =>
    intro s id hc
    simp only [Nat.zero_mul, runBits, List.range_zero, List.map_nil]
    rw [← hc]
  | succ ρ ih =>
    intro s id hc
    have hsplit : (ρ + 1) * (k + 1) = (k + 1) + ρ * (k + 1) := by ring
    rw [hsplit, runBits_add, run_wrap_pass B k ρ s id hc]
    dsimp only
    rw [ih _ id rfl]
    refine Prod.ext ?_ ?_
    · dsimp only
      exact cycle_split B k (ρ * (k + 1))
    · rfl

theorem run_dequeue_pass (B : List Nat) (k r : Nat) (s : GenState) (id : Nat)
    (rest : List (Nat × Packet)) (hc : s.current = none)
    (ht : s.toSend = (id, ⟨B, k + 1, 0, r⟩) :: rest) :
    runBits s (k + 1) =
      ((List.range (k + 1)).map (bitAt B),
       { s with toSend := rest, current := some (.pool id ⟨B, k + 1, k + 1, r⟩) }) := by
  have hd := tick_dequeue s id ⟨B, k + 1, 0, r⟩ rest hc ht
  have hle : 1 + k ≤ k + 1 := by omega
  have hseg := run_emit_seg B (k + 1) r k 1 hle
    { s with current := some (.pool id ⟨B, k + 1, 1, r⟩), toSend := rest } id rfl
  conv_lhs => rw [show k + 1 = 1 + k by omega]
  rw [runBits_add, runBits_one, hd]
  dsimp only
  have hstates : ({ s with current := some (.pool id { (⟨B, k + 1, 0, r⟩ : Packet) with currentBit := (⟨B, k + 1, 0, r⟩ : Packet).currentBit + 1 }), toSend := rest } : GenState) = { s with current := some (.pool id ⟨B, k + 1, 1, r⟩), toSend := rest } := rfl
  rw [hstates, hseg]
  refine Prod.ext ?_ ?_
  · dsimp only
    simp only [List.singleton_append]
    exact head_shift_map B k
  · dsimp only
    rw [show 1 + k = k + 1 by omega]

/-- C5: a pending non idle packet with b = k + 1 bits, cursor 0 and r
repeats is played bit for bit, MSB first, exactly r + 1 times by
successive getNextBitToSend calls; during those (r + 1) * b calls the
packet stays current and the free queue is untouched, and only the next
call afterwards pushes the exhausted packet back onto the free queue. -/
theorem current_packet_repeats_bits (s : GenState) (id : Nat) (B : List Nat) (k r : Nat)
    (rest : List (Nat × Packet)) (hc : s.current = none)
    (ht : s.toSend = (id, ⟨B, k + 1, 0, r⟩) :: rest) :
    (runBits s ((r + 1) * (k + 1))).1 =
      (List.range ((r + 1) * (k + 1))).map (fun j => bitAt B (j % (k + 1))) ∧
    (runBits s ((r + 1) * (k + 1))).2 =
      { s with toSend := rest, current := some (.pool id ⟨B, k + 1, k + 1, 0⟩) } ∧
    (runBits s ((r + 1) * (k + 1))).2.available = s.available ∧
    (getNextBitToSend (runBits s ((r + 1) * (k + 1))).2).2.available =
      s.available ++ [(id, ⟨B, k + 1, k + 1, 0⟩)] := by
  have hsplit : (r + 1) * (k + 1) = (k + 1) + r * (k + 1) := by ring
  have hfirst := run_dequeue_pass B k r s id rest hc ht
  have hrep := run_repeats B k r
    { s with toSend := rest, current := some (.pool id ⟨B, k + 1, k + 1, r⟩) } id rfl
  have hall : runBits s ((r + 1) * (k + 1)) =
      ((List.range ((r + 1) * (k + 1))).map (fun j => bitAt B (j % (k + 1))),
       { s with toSend := rest, current := some (.pool id ⟨B, k + 1, k + 1, 0⟩) }) := by
    rw [hsplit, runBits_add, hfirst]
    dsimp only
    rw [hrep]
    refine Prod.ext ?_ ?_
    · dsimp only
      exact cycle_split B k (r * (k + 1))
    · rfl
  refine ⟨by rw [hall], by rw [hall], by rw [hall], ?_⟩
  rw [hall]
  dsimp only
  exact tick_retire_available _ id ⟨B, k + 1, k + 1, 0⟩ rfl rfl rfl

theorem current_packet_repeats_bits_witness :
    (runBits
      { available := [], toSend := [(5, ⟨[0xA0, 0, 0, 0, 0, 0, 0, 0, 0, 0], 2, 0, 1⟩)],
        current := none, idlePkt := idleSingleton } ((1 + 1) * (1 + 1))).1 =
      [true, false, true, false] ∧
    (getNextBitToSend (runBits
      { available := [], toSend := [(5, ⟨[0xA0, 0, 0, 0, 0, 0, 0, 0, 0, 0], 2, 0, 1⟩)],
        current := none, idlePkt := idleSingleton } ((1 + 1) * (1 + 1))).2).2.available =
      [] ++ [(5, ⟨[0xA0, 0, 0, 0, 0, 0, 0, 0, 0, 0], 2, 2, 0⟩)] := by
  have h := current_packet_repeats_bits
    { available := [], toSend := [(5, ⟨[0xA0, 0, 0, 0, 0, 0, 0, 0, 0, 0], 2, 0, 1⟩)],
      current := none, idlePkt := idleSingleton } 5 [0xA0, 0, 0, 0, 0, 0, 0, 0, 0, 0] 1 1 []
    rfl rfl
  refine ⟨?_, ?_⟩
  · rw [h.1]
    decide
  · exact h.2.2.2
